import Mathlib

/-!
Verification of the MM-IM remediator core (`app/main.py`).

The program scans a text for whole-word, case-insensitive occurrences of a
fixed set of deprecated table names and returns one positioned finding per
occurrence, each annotated with a replacement suggestion and a note.

The embedding below follows the Python source:
  * `CORE_DOC_MAP`, `HYBRID_MAP`, `AGGR_MAP`, `DIMP_MAP`, `HISTORY_MAP` are the
    five literal dictionaries, represented as association lists in the
    source's insertion order.
  * `TABLE_MAP` is the merge `{**CORE_DOC_MAP, **HYBRID_MAP, ...}`; the key
    sets are disjoint (proved below), so a Python dict merge is exactly list
    concatenation with first-match lookup.
  * `TABLE_NAMES = sorted(TABLE_MAP.keys(), key=len, reverse=True)`:
    Python's sort is stable, which is `List.mergeSort` with the comparison
    `b.length ≤ a.length`.
  * `TABLE_RE = \b(?P<name>ALT)\b` with `re.IGNORECASE`, where `ALT` is the
    alternation of `TABLE_NAMES` (all keys are alphanumeric, so `re.escape`
    is the identity).  `finditer` semantics for this pattern are modelled
    directly by `scanFrom`: at each position, if the word boundary before the
    position holds, the alternatives are tried in `TABLE_NAMES` order and the
    first one whose literal matches (case-insensitively) and whose trailing
    word boundary holds wins; on a match the scan resumes right after it,
    otherwise at the next character.  Case-insensitivity and `.upper()` are
    modelled with ASCII `Char.toUpper` (all keys are ASCII uppercase letters).
  * `find_mm_im_issues` and `_add_hit` build the findings from the matches.
Texts are modelled as `String` / `List Char`; offsets are character offsets,
as in Python.
-/

/-- One value of the mapping dictionaries: the replacement (`"new"` in the
source) and the optional explanatory note. -/
structure TableInfo where
  new : String
  note : Option String
deriving Repr, DecidableEq

/-- Core Document Tables (`CORE_DOC_MAP`). -/
def CORE_DOC_MAP : List (String × TableInfo) := [
  ("MKPF", ⟨"MATDOC", some ("Header data no longer stored separately. Still exists as DDIC object, but only read via CDS view NSDM_DDL_MKPF.")⟩),
  ("MSEG", ⟨"MATDOC", some ("Item + header + attributes merged. Proxy CDS: NSDM_DDL_MSEG.")⟩)]

/-- Hybrid Tables (`HYBRID_MAP`). -/
def HYBRID_MAP : List (String × TableInfo) := [
  ("MARC", ⟨"NSDM_DDL_MARC / NSDM_MIG_MARC / V_MARC_MD", some ("Plant Data for Material now redirected to CDS views.")⟩),
  ("MARD", ⟨"NSDM_DDL_MARD / NSDM_MIG_MARD / V_MARD_MD", some ("Storage location data no longer persisted.")⟩),
  ("MCHB", ⟨"NSDM_DDL_MCHB / NSDM_MIG_MCHB / V_MCHB_MD", some ("Batch stock quantities derived from MATDOC.")⟩),
  ("MKOL", ⟨"NSDM_DDL_MKOL / NSDM_MIG_MKOL / V_MKOL_MD", some ("Special stocks from vendor redirected.")⟩),
  ("MSLB", ⟨"NSDM_DDL_MSLB / NSDM_MIG_MSLB / V_MSLB_MD", some ("Special stocks with vendor derived from MATDOC.")⟩),
  ("MSKA", ⟨"NSDM_DDL_MSKA / NSDM_MIG_MSKA / V_MSKA_MD", some ("Sales order stock redirected.")⟩),
  ("MSPR", ⟨"NSDM_DDL_MSPR / NSDM_MIG_MSPR / V_MSPR_MD", some ("Project stock aggregated on the fly.")⟩),
  ("MSKU", ⟨"NSDM_DDL_MSKU / NSDM_MIG_MSKU / V_MSKU_MD", some ("Special stocks with customer from MATDOC.")⟩)]

/-- Replaced Aggregation Tables (`AGGR_MAP`). -/
def AGGR_MAP : List (String × TableInfo) := [
  ("MSSA", ⟨"NSDM_DDL_MSSA", some ("Customer order totals replaced by CDS view.")⟩),
  ("MSSL", ⟨"NSDM_DDL_MSSL", some ("Special stocks with vendor totals replaced by CDS view.")⟩),
  ("MSSQ", ⟨"NSDM_DDL_MSSQ", some ("Project stock totals replaced by CDS view.")⟩),
  ("MSTB", ⟨"NSDM_DDL_MSTB", some ("Stock in transit replaced by CDS view.")⟩),
  ("MSTE", ⟨"NSDM_DDL_MSTE", some ("Stock in transit (SD Doc) replaced by CDS view.")⟩),
  ("MSTQ", ⟨"NSDM_DDL_MSTQ", some ("Stock in transit for project replaced by CDS view.")⟩)]

/-- DIMP Split Hybrid Tables (`DIMP_MAP`). -/
def DIMP_MAP : List (String × TableInfo) := [
  ("MCSD", ⟨"NSDM_DDL_MCSD / MCSD_MD", some ("Customer Stock split: stock → MATDOC, master → MCSD_MD.")⟩),
  ("MCSS", ⟨"NSDM_DDL_MCSS / MCSS_MD", some ("Customer Stock Total split: stock → MATDOC, master → MCSS_MD.")⟩),
  ("MSCD", ⟨"NSDM_DDL_MSCD / MSCD_MD", some ("Customer Stock with Vendor split into MATDOC + MSCD_MD.")⟩),
  ("MSCS", ⟨"NSDM_DDL_MSCS / MSCS_MD", some ("Cust. Stock with Vendor Total split into MATDOC + MSCS_MD.")⟩),
  ("MSFD", ⟨"NSDM_DDL_MSFD / MSFD_MD", some ("Sales Order Stock with Vendor split into MATDOC + MSFD_MD.")⟩),
  ("MSFS", ⟨"NSDM_DDL_MSFS / MSFS_MD", some ("Sales Order Stock with Vendor Total split into MATDOC + MSFS_MD.")⟩),
  ("MSID", ⟨"NSDM_DDL_MSID / MSID_MD", some ("Vendor Stock split into MATDOC + MSID_MD.")⟩),
  ("MSIS", ⟨"NSDM_DDL_MSIS / MSIS_MD", some ("Vendor Stock Total split into MATDOC + MSIS_MD.")⟩),
  ("MSRD", ⟨"NSDM_DDL_MSRD / MSRD_MD", some ("Project Stock with Vendor split into MATDOC + MSRD_MD.")⟩),
  ("MSRS", ⟨"NSDM_DDL_MSRS / MSRS_MD", some ("Project Stock with Vendor Total split into MATDOC + MSRS_MD.")⟩)]

/-- History Tables (`HISTORY_MAP`). -/
def HISTORY_MAP : List (String × TableInfo) := [
  ("MARCH", ⟨"NSDM_DDL_MARCH", some ("MARC History redirected to CDS.")⟩),
  ("MARDH", ⟨"NSDM_DDL_MARDH", some ("MARD History redirected to CDS.")⟩),
  ("MCHBH", ⟨"NSDM_DDL_MCHBH", some ("MCHB History redirected to CDS.")⟩),
  ("MKOLH", ⟨"NSDM_DDL_MKOLH", some ("MKOL History redirected to CDS.")⟩),
  ("MSLBH", ⟨"NSDM_DDL_MSLBH", some ("MSLB History redirected to CDS.")⟩),
  ("MSKAH", ⟨"NSDM_DDL_MSKAH", some ("MSKA History redirected to CDS.")⟩),
  ("MSSAH", ⟨"NSDM_DDL_MSSAH", some ("MSSA History redirected to CDS.")⟩),
  ("MSPRH", ⟨"NSDM_DDL_MSPRH", some ("MSPR History redirected to CDS.")⟩),
  ("MSSQH", ⟨"NSDM_DDL_MSSQH", some ("MSSQ History redirected to CDS.")⟩),
  ("MSKUH", ⟨"NSDM_DDL_MSKUH", some ("MSKU History redirected to CDS.")⟩),
  ("MSTBH", ⟨"NSDM_DDL_MSTBH", some ("MSTB History redirected to CDS.")⟩),
  ("MSTEH", ⟨"NSDM_DDL_MSTEH", some ("MSTE History redirected to CDS.")⟩),
  ("MSTQH", ⟨"NSDM_DDL_MSTQH", some ("MSTQ History redirected to CDS.")⟩),
  ("MCSDH", ⟨"NSDM_DDL_MCSDH", some ("MCSD History redirected to CDS.")⟩),
  ("MCSSH", ⟨"NSDM_DDL_MCSSH", some ("MCSS History redirected to CDS.")⟩),
  ("MSCDH", ⟨"NSDM_DDL_MSCDH", some ("MSCD History redirected to CDS.")⟩),
  ("MSFDH", ⟨"NSDM_DDL_MSFDH", some ("MSFD History redirected to CDS.")⟩),
  ("MSIDH", ⟨"NSDM_DDL_MSIDH", some ("MSID History redirected to CDS.")⟩),
  ("MSRDH", ⟨"NSDM_DDL_MSRDH", some ("MSRD History redirected to CDS.")⟩)]

/-- `TABLE_MAP = {**CORE_DOC_MAP, **HYBRID_MAP, **AGGR_MAP, **DIMP_MAP, **HISTORY_MAP}`.
The five key sets are pairwise disjoint (proved in the C10 theorem), so the
last-wins dict merge is plain concatenation and first-match lookup agrees
with dict lookup. -/
def TABLE_MAP : List (String × TableInfo) :=
  CORE_DOC_MAP ++ HYBRID_MAP ++ AGGR_MAP ++ DIMP_MAP ++ HISTORY_MAP

/-- `TABLE_MAP.get(name)`: dict lookup. -/
def tableMapGet (name : String) : Option TableInfo :=
  (TABLE_MAP.find? (fun p => p.1 == name)).map Prod.snd

/-- Stable insert for a descending-by-length sort: `a` goes in front of the
first element whose length does not exceed `a`'s, so among equal lengths the
original order is kept. -/
def insertByLen (a : String) : List String → List String
  | [] => [a]
  | b :: bs => if b.length ≤ a.length then a :: b :: bs else b :: insertByLen a bs

/-- `TABLE_NAMES = sorted(TABLE_MAP.keys(), key=len, reverse=True)`.
Python's sort is stable (descending by length, ties in insertion order),
which is exactly the stable insertion sort `foldr insertByLen []`. -/
def TABLE_NAMES : List String :=
  (TABLE_MAP.map Prod.fst).foldr insertByLen []

/-- The `\w` character class of the pattern: alphanumeric or underscore
(the texts and keys at issue are ASCII). -/
def isWordChar (c : Char) : Bool := c.isAlphanum || c == '_'

/-- Word-character test extended to "no character" (start/end of text),
which counts as a non-word position for `\b`. -/
def isWordOpt : Option Char → Bool
  | none => false
  | some c => isWordChar c

/-- The regex `\b` assertion between a left and a right character:
exactly one of the two sides is a word character. -/
def wordBoundary (l r : Option Char) : Bool := isWordOpt l != isWordOpt r

/-- Does the literal alternative `k` match (case-insensitively) at the front
of the suffix `s`?  If `s` is shorter than `k` the lengths of the two sides
differ and the test is false. -/
def matchesKeyAt (s : List Char) (k : String) : Bool :=
  (s.take k.length).map Char.toUpper == k.data

/-- The trailing `\b` of the pattern, given that `k`'s literal just matched at
the front of `s`: the first character after the match must be absent or not a
word character (every key ends in a letter, so that side of the boundary is
always a word character). -/
def boundaryAfter (s : List Char) (k : String) : Bool :=
  match s.drop k.length with
  | [] => true
  | c :: _ => !(isWordChar c)

/-- The full condition for alternative `k` to match at the position whose
suffix is `s` and whose preceding character is `prev`: the leading `\b`
(between `prev` and the head of `s`), the literal itself, and the
trailing `\b`. -/
def matchCond (prev : Option Char) (s : List Char) (k : String) : Bool :=
  wordBoundary prev s.head? && matchesKeyAt s k && boundaryAfter s k

/-- One attempt of the regex engine at a fixed position: the alternatives are
tried in order and the first one satisfying `matchCond` wins (backtracking
over a literal alternation). -/
def tryKeys (prev : Option Char) (s : List Char) : List String → Option String
  | [] => none
  | k :: ks =>
      if matchCond prev s k then some k
      else tryKeys prev s ks

/-- `TABLE_RE.finditer`, fuelled so that the recursion is structural (each
step consumes at least one character, so any `fuel ≥ l.length` gives the same
result; the wrapper `scanFrom` passes `l.length`): scan left to right; on a
match of length `n` emit its span and resume right after it (non-overlapping
matches), otherwise advance one character.  `prev` is the character just
before the current position (`none` at the start of the text), `pos` the
current absolute offset.  Every key is nonempty, so `rest.drop (k.length - 1)`
is the suffix of the text right after the match. -/
def scanFromF : Nat → Option Char → Nat → List Char → List (Nat × Nat × String)
  | 0, _, _, _ => []
  | fuel + 1, prev, pos, l =>
      match l with
      | [] => []
      | c :: rest =>
          match tryKeys prev (c :: rest) TABLE_NAMES with
          | some k =>
              (pos, pos + k.length, k) ::
                scanFromF fuel ((c :: rest).take k.length).getLast? (pos + k.length)
                  (rest.drop (k.length - 1))
          | none => scanFromF fuel (some c) (pos + 1) rest

/-- `TABLE_RE.finditer` over the whole text. -/
def scanFrom (prev : Option Char) (pos : Nat) (l : List Char) :
    List (Nat × Nat × String) :=
  scanFromF l.length prev pos l

/-- One finding record as built by `_add_hit` (`meta` in the source).
`note` is present only when `_add_hit` received a truthy note. -/
structure Finding where
  table : String
  target_type : String
  target_name : String
  start_char_in_unit : Nat
  end_char_in_unit : Nat
  used_fields : List String
  ambiguous : Bool
  suggested_statement : String
  suggested_fields : Option (List String)
  note : Option String
deriving Repr, DecidableEq

/-- `_add_hit(hits, span, target_name, suggested_statement, note)`: the record
appended to `hits`.  `m.span()` is always a present pair of offsets, so the
`span[0] if span else None` guards yield the offsets themselves; `if note:`
stores the note only when it is neither absent nor empty. -/
def add_hit (span : Nat × Nat) (target_name : String)
    (suggested_statement : String) (note : Option String) : Finding :=
  { table := target_name
    target_type := "Table"
    target_name := target_name
    start_char_in_unit := span.1
    end_char_in_unit := span.2
    used_fields := []
    ambiguous := false
    suggested_statement := suggested_statement
    suggested_fields := none
    note := match note with
      | some s => if s.isEmpty then none else some s
      | none => none }

/-- `find_mm_im_issues(txt)`: empty text short-circuits to `[]`; otherwise each
regex match whose uppercased name is found in `TABLE_MAP` contributes one
finding, in match order.  The scanner only ever matches a literal key, whose
uppercase form is the key itself, so the match's name is returned directly by
`scanFrom`. -/
def find_mm_im_issues (txt : String) : List Finding :=
  if txt.data = [] then []
  else
    (scanFrom none 0 txt.data).filterMap fun m =>
      match tableMapGet m.2.2 with
      | some info =>
          some (add_hit (m.1, m.2.1) m.2.2
            (("Use ") ++ info.new ++ (" instead of ") ++ m.2.2 ++ (".")) info.note)
      | none => none

/-!
## Specification-side occurrence predicate

`occursAt prev l j k` says that key `k` occurs, as a whole word and
case-insensitively, at offset `j` of the text `l` whose (virtual) character
before offset 0 is `prev`.  It restates the per-position match condition at
an absolute offset and is the yardstick against which the scanner is proved
sound and complete.
-/

/-- The character immediately to the left of offset `j` of `l` (the virtual
predecessor `prev` when `j = 0`). -/
def leftChar (prev : Option Char) (l : List Char) (j : Nat) : Option Char :=
  if j = 0 then prev else l.get? (j - 1)

/-- Key `k` occurs as a whole word (case-insensitively) at offset `j`. -/
def occursAt (prev : Option Char) (l : List Char) (j : Nat) (k : String) : Bool :=
  matchCond (leftChar prev l j) (l.drop j) k

/-- Does any key of the alternation occur (as a whole word) at offset `j`
of the text? -/
def occursAnyAt (l : List Char) (j : Nat) : Bool :=
  TABLE_NAMES.any (fun k => occursAt none l j k)

/-!
## Character-level and table-level facts
-/

/-- A character whose ASCII uppercasing is an uppercase letter is a word
character. -/
lemma wordOfUpperLetter (c : Char) (h1 : 'A' ≤ c.toUpper) (h2 : c.toUpper ≤ 'Z') :
    isWordChar c = true := by
  unfold Char.toUpper at h1 h2
  unfold isWordChar Char.isAlphanum Char.isAlpha Char.isUpper Char.isLower
  simp only [Bool.or_eq_true, Bool.and_eq_true, decide_eq_true_eq]
  have hc : c.toNat = c.val.toNat := rfl
  by_cases hcond : c.toNat ≥ 97 ∧ c.toNat ≤ 122
  · left; left; right
    refine ⟨?_, ?_⟩
    · show (97 : UInt32).toNat ≤ c.val.toNat
      have h97 : (97 : UInt32).toNat = 97 := rfl
      rw [h97]
      omega
    · show c.val.toNat ≤ (122 : UInt32).toNat
      have h122 : (122 : UInt32).toNat = 122 := rfl
      rw [h122]
      omega
  · rw [if_neg hcond] at h1 h2
    rw [Char.le_def] at h1 h2
    have h1n : ('A'.val).toNat ≤ c.val.toNat := h1
    have h2n : c.val.toNat ≤ ('Z'.val).toNat := h2
    have hA : ('A'.val).toNat = 65 := rfl
    have hZ : ('Z'.val).toNat = 90 := rfl
    left; left; left
    refine ⟨?_, ?_⟩
    · show (65 : UInt32).toNat ≤ c.val.toNat
      have : (65 : UInt32).toNat = 65 := rfl
      omega
    · show c.val.toNat ≤ (90 : UInt32).toNat
      have : (90 : UInt32).toNat = 90 := rfl
      omega

/-- Every key of the alternation is nonempty and consists of uppercase ASCII
letters only. -/
lemma table_names_upper :
    ∀ k ∈ TABLE_NAMES, k.data ≠ [] ∧ ∀ c ∈ k.data, 'A' ≤ c ∧ c ≤ 'Z' := by decide

/-- Every key of the alternation has a `TABLE_MAP` entry. -/
lemma table_names_found : ∀ k ∈ TABLE_NAMES, (tableMapGet k).isSome := by decide

/-!
## Lemmas about the per-position match condition
-/

lemma string_length_eq_data (k : String) : k.length = k.data.length := rfl

lemma matchesKeyAt_iff (s : List Char) (k : String) :
    matchesKeyAt s k = true ↔ (s.take k.length).map Char.toUpper = k.data := by
  unfold matchesKeyAt
  exact beq_iff_eq

lemma matchesKeyAt_le (s : List Char) (k : String)
    (h : matchesKeyAt s k = true) : k.length ≤ s.length := by
  rw [matchesKeyAt_iff] at h
  have hlen := congrArg List.length h
  rw [List.length_map, List.length_take] at hlen
  have hkd : k.data.length = k.length := rfl
  rcases Nat.le_total k.length s.length with h' | h'
  · exact h'
  · rw [min_eq_right h'] at hlen
    omega

/-- Every character of the text under a successful literal match of an
uppercase-letter key is a word character. -/
lemma match_region_word (s : List Char) (k : String)
    (hk : ∀ c ∈ k.data, 'A' ≤ c ∧ c ≤ 'Z')
    (h : matchesKeyAt s k = true) :
    ∀ c ∈ s.take k.length, isWordChar c = true := by
  intro c hc
  rw [matchesKeyAt_iff] at h
  have hmem : c.toUpper ∈ k.data := h ▸ List.mem_map_of_mem _ hc
  exact wordOfUpperLetter c (hk _ hmem).1 (hk _ hmem).2

lemma match_region_word_at (s : List Char) (k : String)
    (hk : ∀ c ∈ k.data, 'A' ≤ c ∧ c ≤ 'Z')
    (h : matchesKeyAt s k = true) (i : Nat) (hi : i < k.length)
    (c : Char) (hc : s.get? i = some c) : isWordChar c = true := by
  apply match_region_word s k hk h
  apply List.get?_mem (n := i)
  rw [List.get?_eq_getElem?] at hc ⊢
  rw [List.getElem?_take, if_pos hi]
  exact hc

/-- A successful literal match of a nonempty uppercase-letter key forces the
first matched character to exist and to be a word character. -/
lemma match_head_word (s : List Char) (k : String)
    (hk : ∀ c ∈ k.data, 'A' ≤ c ∧ c ≤ 'Z') (hne : k.data ≠ [])
    (h : matchesKeyAt s k = true) :
    ∃ c, s.head? = some c ∧ isWordChar c = true := by
  have hpos : 1 ≤ k.length := by
    rw [string_length_eq_data]
    cases hd : k.data with
    | nil => exact absurd hd hne
    | cons a tl => simp
  have hle := matchesKeyAt_le s k h
  cases s with
  | nil => simp at hle; omega
  | cons c rest =>
      refine ⟨c, rfl, ?_⟩
      exact match_region_word_at (c :: rest) k hk h 0 (by omega) c rfl

lemma boundaryAfter_head (s : List Char) (k : String) (c : Char)
    (h : boundaryAfter s k = true) (hc : s.get? k.length = some c) :
    isWordChar c = false := by
  unfold boundaryAfter at h
  rw [List.get?_eq_getElem?, ← List.head?_drop] at hc
  cases hd : s.drop k.length with
  | nil => rw [hd] at hc; simp at hc
  | cons c' tl =>
      rw [hd] at hc h
      simp only [List.head?_cons, Option.some.injEq] at hc
      subst hc
      simpa using h

lemma matchCond_parts (prev : Option Char) (s : List Char) (k : String)
    (h : matchCond prev s k = true) :
    wordBoundary prev s.head? = true ∧ matchesKeyAt s k = true ∧ boundaryAfter s k = true := by
  unfold matchCond at h
  simp only [Bool.and_eq_true] at h
  exact ⟨h.1.1, h.1.2, h.2⟩

/-!
## Lemmas about one engine attempt (`tryKeys`)
-/

lemma tryKeys_sound (prev : Option Char) (s : List Char) (k : String) :
    ∀ (names : List String), tryKeys prev s names = some k →
      k ∈ names ∧ matchCond prev s k = true := by
  intro names
  induction names with
  | nil => intro h; simp [tryKeys] at h
  | cons a tl ih =>
      intro h
      unfold tryKeys at h
      by_cases hc : matchCond prev s a = true
      · rw [if_pos hc] at h
        obtain rfl : a = k := by simpa using h
        exact ⟨List.mem_cons_self _ _, hc⟩
      · rw [if_neg hc] at h
        obtain ⟨h1, h2⟩ := ih h
        exact ⟨List.mem_cons_of_mem _ h1, h2⟩

lemma tryKeys_none (prev : Option Char) (s : List Char) :
    ∀ (names : List String), tryKeys prev s names = none →
      ∀ k ∈ names, matchCond prev s k = false := by
  intro names
  induction names with
  | nil => intro _ k hk; simp at hk
  | cons a tl ih =>
      intro h k hk
      unfold tryKeys at h
      by_cases hc : matchCond prev s a = true
      · rw [if_pos hc] at h; simp at h
      · rw [if_neg hc] at h
        rcases List.mem_cons.mp hk with rfl | hmem
        · simpa using hc
        · exact ih h k hmem

/-- At a fixed position, at most one key can match with its trailing word
boundary satisfied: a shorter key matching at the same position is always
followed by a word character (a letter of the longer key). -/
lemma matchKey_not_lt (s : List Char) (k k' : String)
    (hk' : ∀ c ∈ k'.data, 'A' ≤ c ∧ c ≤ 'Z')
    (hlt : k.length < k'.length)
    (hb1 : boundaryAfter s k = true)
    (h2 : matchesKeyAt s k' = true) : False := by
  have hle := matchesKeyAt_le s k' h2
  have hlen : k.length < s.length := lt_of_lt_of_le hlt hle
  cases hc : s.get? k.length with
  | none =>
      rw [List.get?_eq_getElem?, List.getElem?_eq_none_iff] at hc
      omega
  | some c =>
      have hw := match_region_word_at s k' hk' h2 k.length hlt c hc
      have hnw := boundaryAfter_head s k c hb1 hc
      rw [hw] at hnw
      exact Bool.noConfusion hnw

/-- Uniqueness of the boundary-satisfying match at a fixed position. -/
lemma matchKey_unique (s : List Char) (k k' : String)
    (hk : ∀ c ∈ k.data, 'A' ≤ c ∧ c ≤ 'Z')
    (hk' : ∀ c ∈ k'.data, 'A' ≤ c ∧ c ≤ 'Z')
    (h1 : matchesKeyAt s k = true) (hb1 : boundaryAfter s k = true)
    (h2 : matchesKeyAt s k' = true) (hb2 : boundaryAfter s k' = true) : k = k' := by
  rcases Nat.lt_trichotomy k.length k'.length with hlt | heq | hgt
  · exact (matchKey_not_lt s k k' hk' hlt hb1 h2).elim
  · rw [matchesKeyAt_iff] at h1 h2
    apply String.ext
    rw [← h1, ← h2, heq]
  · exact (matchKey_not_lt s k' k hk hgt hb2 h1).elim


/-!
## Shifting the occurrence predicate along the scan
-/

lemma occursAt_nil (prev : Option Char) (j : Nat) (k : String)
    (hne : k.data ≠ []) : occursAt prev [] j k = false := by
  unfold occursAt matchCond matchesKeyAt
  cases hd : k.data with
  | nil => exact absurd hd hne
  | cons a tl => simp [hd]

lemma occursAt_lt_length (prev : Option Char) (l : List Char) (j : Nat) (k : String)
    (hne : k.data ≠ []) (h : occursAt prev l j k = true) : j < l.length := by
  unfold occursAt at h
  obtain ⟨-, hm, -⟩ := matchCond_parts _ _ _ h
  have hle := matchesKeyAt_le _ _ hm
  have hpos : 1 ≤ k.length := by
    rw [string_length_eq_data]
    cases hd : k.data with
    | nil => exact absurd hd hne
    | cons a tl => simp
  rw [List.length_drop] at hle
  omega

lemma occursAt_cons (prev : Option Char) (c : Char) (rest : List Char)
    (j : Nat) (k : String) :
    occursAt (some c) rest j k = occursAt prev (c :: rest) (j + 1) k := by
  unfold occursAt leftChar
  have hdrop : (c :: rest).drop (j + 1) = rest.drop j := rfl
  cases j with
  | zero => simp [hdrop]
  | succ n =>
      rw [hdrop, if_neg (by omega), if_neg (by omega)]
      congr 1

lemma take_getLast_eq_get (l : List Char) (n : Nat) (h1 : 1 ≤ n) (h2 : n ≤ l.length) :
    (l.take n).getLast? = l.get? (n - 1) := by
  rw [List.getLast?_eq_getElem?, List.length_take, min_eq_left h2,
    List.getElem?_take, if_pos (by omega), List.get?_eq_getElem?]

lemma occursAt_block (prev : Option Char) (l : List Char) (n j : Nat) (k : String)
    (h1 : 1 ≤ n) (h2 : n ≤ l.length) :
    occursAt ((l.take n).getLast?) (l.drop n) j k = occursAt prev l (n + j) k := by
  unfold occursAt leftChar
  rw [List.drop_drop]
  cases j with
  | zero =>
      rw [if_pos rfl, if_neg (by omega), take_getLast_eq_get l n h1 h2]
      exact rfl
  | succ m =>
      rw [if_neg (by omega), if_neg (by omega)]
      have hidx : (l.drop n).get? (m + 1 - 1) = l.get? (n + (m + 1) - 1) := by
        show (l.drop n).get? m = l.get? (n + m)
        rw [List.get?_eq_getElem?, List.get?_eq_getElem?, List.getElem?_drop]
      rw [hidx]

/-!
## Soundness, completeness and ordering of the scanner
-/

lemma key_length_pos (k : String) (hne : k.data ≠ []) : 1 ≤ k.length := by
  rw [string_length_eq_data]
  cases hd : k.data with
  | nil => exact absurd hd hne
  | cons a tl => simp

/-- Every match reported by the scanner is a whole-word occurrence of a key
of the alternation, with the reported span determined by its offset and the
key's length. -/
lemma scanFromF_sound :
    ∀ (fuel : Nat) (prev : Option Char) (pos : Nat) (l : List Char),
      l.length ≤ fuel → ∀ x ∈ scanFromF fuel prev pos l,
      ∃ j k, x = (pos + j, pos + j + k.length, k) ∧ k ∈ TABLE_NAMES ∧
        occursAt prev l j k = true := by
  intro fuel
  induction fuel with
  | zero =>
      intro prev pos l hl x hx
      simp [scanFromF] at hx
  | succ fuel ih =>
      intro prev pos l hl x hx
      match l with
      | [] => simp [scanFromF] at hx
      | c :: rest =>
          rw [scanFromF] at hx
          cases htk : tryKeys prev (c :: rest) TABLE_NAMES with
          | none =>
              rw [htk] at hx
              obtain ⟨j, k, hx1, hk, hocc⟩ :=
                ih (some c) (pos + 1) rest (by simp at hl; omega) x hx
              refine ⟨j + 1, k, ?_, hk, ?_⟩
              · rw [hx1]
                have : pos + 1 + j = pos + (j + 1) := by omega
                rw [this]
              · rw [← occursAt_cons]
                exact hocc
          | some k0 =>
              rw [htk] at hx
              obtain ⟨hmem, hcond⟩ := tryKeys_sound prev (c :: rest) k0 TABLE_NAMES htk
              obtain ⟨-, hmatch, -⟩ := matchCond_parts _ _ _ hcond
              have hup := table_names_upper k0 hmem
              have hn1 : 1 ≤ k0.length := key_length_pos k0 hup.1
              have hn2 : k0.length ≤ (c :: rest).length := matchesKeyAt_le _ _ hmatch
              have hdrop : rest.drop (k0.length - 1) = (c :: rest).drop k0.length := by
                cases hn : k0.length with
                | zero => omega
                | succ n =>
                    rw [List.drop_succ_cons]
                    exact rfl
              rcases List.mem_cons.mp hx with rfl | hx'
              · refine ⟨0, k0, rfl, hmem, ?_⟩
                unfold occursAt leftChar
                rw [if_pos rfl]
                exact hcond
              · rw [hdrop] at hx'
                obtain ⟨j, k, hx1, hk, hocc⟩ :=
                  ih ((c :: rest).take k0.length).getLast? (pos + k0.length)
                    ((c :: rest).drop k0.length)
                    (by rw [List.length_drop]; simp at hl ⊢; omega) x hx'
                refine ⟨k0.length + j, k, ?_, hk, ?_⟩
                · rw [hx1]
                  have : pos + k0.length + j = pos + (k0.length + j) := by omega
                  rw [this]
                · rw [← occursAt_block prev (c :: rest) k0.length j k hn1 hn2]
                  exact hocc

/-- Every whole-word occurrence of a key of the alternation is reported by
the scanner, at exactly its offset. -/
lemma scanFromF_complete :
    ∀ (fuel : Nat) (prev : Option Char) (pos : Nat) (l : List Char) (j : Nat) (k : String),
      l.length ≤ fuel → k ∈ TABLE_NAMES → occursAt prev l j k = true →
      (pos + j, pos + j + k.length, k) ∈ scanFromF fuel prev pos l := by
  intro fuel
  induction fuel with
  | zero =>
      intro prev pos l j k hl hk hocc
      have hl0 : l = [] := by
        cases l with
        | nil => rfl
        | cons a tl => simp at hl
      rw [hl0] at hocc
      rw [occursAt_nil prev j k (table_names_upper k hk).1] at hocc
      exact Bool.noConfusion hocc
  | succ fuel ih =>
      intro prev pos l j k hl hk hocc
      match l with
      | [] =>
          rw [occursAt_nil prev j k (table_names_upper k hk).1] at hocc
          exact Bool.noConfusion hocc
      | c :: rest =>
          rw [scanFromF]
          have hup := table_names_upper k hk
          cases htk : tryKeys prev (c :: rest) TABLE_NAMES with
          | none =>
              cases j with
              | zero =>
                  exfalso
                  have hcond : matchCond prev (c :: rest) k = true := by
                    unfold occursAt leftChar at hocc
                    rw [if_pos rfl] at hocc
                    exact hocc
                  have := tryKeys_none prev (c :: rest) TABLE_NAMES htk k hk
                  rw [hcond] at this
                  exact Bool.noConfusion this
              | succ m =>
                  rw [← occursAt_cons prev c rest m k] at hocc
                  have hArith : pos + (m + 1) = pos + 1 + m := by omega
                  rw [hArith]
                  exact ih (some c) (pos + 1) rest m k (by simp at hl; omega) hk hocc
          | some k0 =>
              obtain ⟨hmem0, hcond0⟩ := tryKeys_sound prev (c :: rest) k0 TABLE_NAMES htk
              obtain ⟨hb0, hm0, ha0⟩ := matchCond_parts _ _ _ hcond0
              have hup0 := table_names_upper k0 hmem0
              have hn1 : 1 ≤ k0.length := key_length_pos k0 hup0.1
              have hn2 : k0.length ≤ (c :: rest).length := matchesKeyAt_le _ _ hm0
              have hdrop : rest.drop (k0.length - 1) = (c :: rest).drop k0.length := by
                cases hn : k0.length with
                | zero => omega
                | succ n =>
                    rw [List.drop_succ_cons]
                    exact rfl
              cases j with
              | zero =>
                  have hcond : matchCond prev (c :: rest) k = true := by
                    unfold occursAt leftChar at hocc
                    rw [if_pos rfl] at hocc
                    exact hocc
                  obtain ⟨-, hm, ha⟩ := matchCond_parts _ _ _ hcond
                  obtain rfl : k = k0 :=
                    matchKey_unique (c :: rest) k k0 hup.2 hup0.2 hm ha hm0 ha0
                  exact List.mem_cons_self _ _
              | succ m =>
                  have hskip : k0.length ≤ m := by
                    by_contra hlt
                    push_neg at hlt
                    unfold occursAt leftChar at hocc
                    rw [if_neg (by omega)] at hocc
                    obtain ⟨hbj, hmj, -⟩ := matchCond_parts _ _ _ hocc
                    obtain ⟨ch, hch, hchw⟩ :=
                      match_head_word _ k hup.2 hup.1 hmj
                    rw [hch] at hbj
                    have hleft : isWordOpt ((c :: rest).get? (m + 1 - 1)) = false := by
                      unfold wordBoundary at hbj
                      cases hv : isWordOpt ((c :: rest).get? (m + 1 - 1)) with
                      | false => rfl
                      | true =>
                          exfalso
                          rw [hv] at hbj
                          simp [isWordOpt, hchw] at hbj
                    have hm_lt : m < (c :: rest).length := by omega
                    cases hcm : (c :: rest).get? m with
                    | none =>
                        rw [List.get?_eq_getElem?, List.getElem?_eq_none_iff] at hcm
                        omega
                    | some cm =>
                        have hw := match_region_word_at (c :: rest) k0 hup0.2 hm0 m
                          (by omega) cm hcm
                        have : isWordOpt ((c :: rest).get? (m + 1 - 1)) = true := by
                          have hred : m + 1 - 1 = m := by omega
                          rw [hred, hcm]
                          unfold isWordOpt
                          exact hw
                        rw [this] at hleft
                        exact Bool.noConfusion hleft
                  have harith : m + 1 = k0.length + (m + 1 - k0.length) := by omega
                  rw [harith] at hocc
                  rw [← occursAt_block prev (c :: rest) k0.length (m + 1 - k0.length) k hn1 hn2]
                    at hocc
                  have hrec := ih ((c :: rest).take k0.length).getLast? (pos + k0.length)
                    ((c :: rest).drop k0.length) (m + 1 - k0.length) k
                    (by rw [List.length_drop]; simp at hl ⊢; omega) hk hocc
                  apply List.mem_cons_of_mem
                  rw [hdrop]
                  have harith2 : pos + (m + 1) = pos + k0.length + (m + 1 - k0.length) := by
                    omega
                  rw [harith2]
                  exact hrec

/-- Every match reported by the scanner starts at or after the current
position. -/
lemma scanFromF_lb (fuel : Nat) (prev : Option Char) (pos : Nat) (l : List Char)
    (hl : l.length ≤ fuel) (x : Nat × Nat × String)
    (hx : x ∈ scanFromF fuel prev pos l) : pos ≤ x.1 := by
  obtain ⟨j, k, rfl, -, -⟩ := scanFromF_sound fuel prev pos l hl x hx
  simp

/-- The matches are reported in strictly increasing start order and their
spans do not overlap. -/
lemma scanFromF_pairwise :
    ∀ (fuel : Nat) (prev : Option Char) (pos : Nat) (l : List Char),
      l.length ≤ fuel →
      (scanFromF fuel prev pos l).Pairwise (fun a b => a.2.1 ≤ b.1 ∧ a.1 < b.1) := by
  intro fuel
  induction fuel with
  | zero => intro prev pos l hl; simp [scanFromF]
  | succ fuel ih =>
      intro prev pos l hl
      match l with
      | [] => simp [scanFromF]
      | c :: rest =>
          rw [scanFromF]
          cases htk : tryKeys prev (c :: rest) TABLE_NAMES with
          | none => exact ih (some c) (pos + 1) rest (by simp at hl; omega)
          | some k0 =>
              obtain ⟨hmem0, hcond0⟩ := tryKeys_sound prev (c :: rest) k0 TABLE_NAMES htk
              have hn1 : 1 ≤ k0.length := key_length_pos k0 (table_names_upper k0 hmem0).1
              have hrest : (rest.drop (k0.length - 1)).length ≤ fuel := by
                rw [List.length_drop]
                simp at hl
                omega
              refine List.Pairwise.cons ?_ (ih _ _ _ hrest)
              intro b hb
              have hlb := scanFromF_lb fuel _ (pos + k0.length) _ hrest b hb
              constructor
              · exact hlb
              · omega

/-- Characterisation of the scanner's output: a triple is reported iff it is
a whole-word occurrence of a key of the alternation, with the span determined
by the offset and the key length. -/
lemma mem_scanFrom_iff (prev : Option Char) (pos : Nat) (l : List Char)
    (x : Nat × Nat × String) :
    x ∈ scanFrom prev pos l ↔
      ∃ j k, x = (pos + j, pos + j + k.length, k) ∧ k ∈ TABLE_NAMES ∧
        occursAt prev l j k = true := by
  unfold scanFrom
  constructor
  · exact scanFromF_sound l.length prev pos l le_rfl x
  · rintro ⟨j, k, rfl, hk, hocc⟩
    exact scanFromF_complete l.length prev pos l j k le_rfl hk hocc

/-!
## The alternation list and the table
-/

lemma mem_insertByLen (a x : String) (l : List String) :
    x ∈ insertByLen a l ↔ x = a ∨ x ∈ l := by
  induction l with
  | nil => simp [insertByLen]
  | cons b bs ih =>
      unfold insertByLen
      by_cases hc : b.length ≤ a.length
      · rw [if_pos hc]
        simp
      · rw [if_neg hc]
        simp [ih]
        tauto

/-- Membership in the sorted alternation list is membership among the table's
keys. -/
lemma mem_table_names (x : String) :
    x ∈ TABLE_NAMES ↔ x ∈ TABLE_MAP.map Prod.fst := by
  unfold TABLE_NAMES
  generalize TABLE_MAP.map Prod.fst = keys
  induction keys with
  | nil => simp
  | cons a tl ih => simp [mem_insertByLen, ih]

lemma table_keys_nodup : (TABLE_MAP.map Prod.fst).Nodup := by decide

/-- With nodup keys, dict lookup returns the entry of any member pair. -/
lemma assoc_find_of_mem :
    ∀ (l : List (String × TableInfo)), (l.map Prod.fst).Nodup →
      ∀ (k : String) (i : TableInfo), (k, i) ∈ l →
      (l.find? (fun p => p.1 == k)).map Prod.snd = some i := by
  intro l
  induction l with
  | nil => intro _ k i hmem; simp at hmem
  | cons a tl ih =>
      intro hnd k i hmem
      rw [List.map_cons, List.nodup_cons] at hnd
      by_cases hak : a.1 = k
      · rw [List.find?_cons_of_pos _ (by simpa using hak)]
        rcases List.mem_cons.mp hmem with heq | hmem'
        · rw [← heq]
          rfl
        · exfalso
          apply hnd.1
          rw [hak]
          exact List.mem_map_of_mem Prod.fst hmem'
      · rw [List.find?_cons_of_neg _ (by simpa using hak)]
        rcases List.mem_cons.mp hmem with heq | hmem'
        · exact absurd (congrArg Prod.fst heq.symm) hak
        · exact ih hnd.2 k i hmem'

lemma tableMapGet_of_mem (k : String) (i : TableInfo) (h : (k, i) ∈ TABLE_MAP) :
    tableMapGet k = some i :=
  assoc_find_of_mem TABLE_MAP table_keys_nodup k i h

/-!
## Characterising the findings
-/

/-- The suggestion text built by `find_mm_im_issues`:
`f"Use {info['new']} instead of {name}."`. -/
def suggestionFor (k : String) (info : TableInfo) : String :=
  ("Use ") ++ info.new ++ (" instead of ") ++ k ++ (".")

/-- A finding is produced exactly for each whole-word occurrence of a key
whose lookup succeeds, and it is the record `_add_hit` builds for it. -/
lemma mem_find_iff (txt : String) (f : Finding) :
    f ∈ find_mm_im_issues txt ↔
      ∃ j k info, k ∈ TABLE_NAMES ∧ occursAt none txt.data j k = true ∧
        tableMapGet k = some info ∧
        f = add_hit (j, j + k.length) k (suggestionFor k info) info.note := by
  unfold find_mm_im_issues
  by_cases hnil : txt.data = []
  · rw [if_pos hnil]
    simp only [List.not_mem_nil, false_iff]
    rintro ⟨j, k, info, hk, hocc, -, -⟩
    rw [hnil, occursAt_nil none j k (table_names_upper k hk).1] at hocc
    exact Bool.noConfusion hocc
  · rw [if_neg hnil, List.mem_filterMap]
    constructor
    · rintro ⟨m, hm, hg⟩
      obtain ⟨j, k, rfl, hk, hocc⟩ := (mem_scanFrom_iff none 0 txt.data m).mp hm
      cases hget : tableMapGet k with
      | none =>
          rw [hget] at hg
          exact Option.noConfusion hg
      | some info =>
          rw [hget] at hg
          refine ⟨j, k, info, hk, hocc, hget, ?_⟩
          have hf := Option.some.inj hg
          rw [← hf]
          simp [suggestionFor, Nat.zero_add]
    · rintro ⟨j, k, info, hk, hocc, hget, rfl⟩
      refine ⟨(j, j + k.length, k), ?_, ?_⟩
      · refine (mem_scanFrom_iff none 0 txt.data _).mpr ⟨j, k, ?_, hk, hocc⟩
        simp
      · show (match tableMapGet k with
          | some info => some (add_hit (j, j + k.length) k
              (("Use ") ++ info.new ++ (" instead of ") ++ k ++ (".")) info.note)
          | none => none) = _
        rw [hget]
        rfl

/-- All lookups on the scanner's output succeed, so `filterMap` drops no
match. -/
lemma filterMap_length_all_some {α β : Type} (g : α → Option β) :
    ∀ (l : List α), (∀ a ∈ l, (g a).isSome) → (l.filterMap g).length = l.length := by
  intro l
  induction l with
  | nil => simp
  | cons a tl ih =>
      intro h
      rw [List.filterMap_cons]
      cases hg : g a with
      | none =>
          have := h a (List.mem_cons_self a tl)
          rw [hg] at this
          exact absurd this (by simp)
      | some b =>
          simp only [List.length_cons]
          rw [ih (fun x hx => h x (List.mem_cons_of_mem a hx))]

/-- The findings inherit the scanner's strict left-to-right order. -/
lemma find_pairwise (txt : String) :
    (find_mm_im_issues txt).Pairwise
      (fun a b => a.end_char_in_unit ≤ b.start_char_in_unit ∧
        a.start_char_in_unit < b.start_char_in_unit) := by
  unfold find_mm_im_issues
  by_cases hnil : txt.data = []
  · rw [if_pos hnil]
    exact List.Pairwise.nil
  · rw [if_neg hnil, List.pairwise_filterMap]
    have hpw := scanFromF_pairwise txt.data.length none 0 txt.data le_rfl
    refine List.Pairwise.imp ?_ hpw
    intro m m' hmm' b hb b' hb'
    cases hget : tableMapGet m.2.2 with
    | none =>
        rw [hget] at hb
        simp at hb
    | some info =>
        rw [hget] at hb
        cases hget' : tableMapGet m'.2.2 with
        | none =>
            rw [hget'] at hb'
            simp at hb'
        | some info' =>
            rw [hget'] at hb'
            have hbeq : add_hit (m.1, m.2.1) m.2.2
                (("Use ") ++ info.new ++ (" instead of ") ++ m.2.2 ++ (".")) info.note = b := by
              simpa using hb
            have hbeq' : add_hit (m'.1, m'.2.1) m'.2.2
                (("Use ") ++ info'.new ++ (" instead of ") ++ m'.2.2 ++ (".")) info'.note = b' := by
              simpa using hb'
            rw [← hbeq, ← hbeq']
            unfold add_hit
            exact hmm'

/-- A list whose members all equal `e`, that contains `e`, and that is
pairwise in an irreflexive relation, is exactly `[e]`. -/
lemma eq_singleton_of_all_eq {α : Type} (R : α → α → Prop) (l : List α) (e : α)
    (he : e ∈ l) (hall : ∀ x ∈ l, x = e) (hpw : l.Pairwise R) (hirr : ¬ R e e) :
    l = [e] := by
  cases l with
  | nil => simp at he
  | cons a tl =>
      have ha : a = e := hall a (List.mem_cons_self a tl)
      cases tl with
      | nil => rw [ha]
      | cons b tl2 =>
          exfalso
          have hb : b = e := hall b (by simp)
          have hr := (List.pairwise_cons.mp hpw).1 b (by simp)
          rw [ha, hb] at hr
          exact hirr hr

/-!
## Occurrences in a text that is one key surrounded by non-word characters
-/

lemma wordBoundary_of (lft rgt : Option Char) (hl : isWordOpt lft = false)
    (hr : isWordOpt rgt = true) : wordBoundary lft rgt = true := by
  unfold wordBoundary
  rw [hl, hr]
  rfl

lemma wordBoundary_left_false (lft rgt : Option Char) (h : wordBoundary lft rgt = true)
    (hr : isWordOpt rgt = true) : isWordOpt lft = false := by
  unfold wordBoundary at h
  rw [hr] at h
  cases hv : isWordOpt lft with
  | false => rfl
  | true =>
      rw [hv] at h
      simp at h

lemma get?_isSome_of_lt {l : List Char} {i : Nat} (h : i < l.length) :
    ∃ c, l.get? i = some c := by
  cases hc : l.get? i with
  | none =>
      rw [List.get?_eq_getElem?, List.getElem?_eq_none_iff] at hc
      omega
  | some c => exact ⟨c, rfl⟩

/-- In a text made of a (case variant of a) key `K` surrounded by non-word
characters, `K` occurs as a whole word right after the prefix. -/
lemma occursAt_sandwich (pre w post : List Char) (K : String)
    (hw : w.map Char.toUpper = K.data)
    (hKup : ∀ c ∈ K.data, 'A' ≤ c ∧ c ≤ 'Z') (hKne : K.data ≠ [])
    (hpre : ∀ c ∈ pre, isWordChar c = false)
    (hpost : ∀ c ∈ post, isWordChar c = false) :
    occursAt none (pre ++ w ++ post) pre.length K = true := by
  have hwlen : w.length = K.length := by
    have hlen := congrArg List.length hw
    rw [List.length_map] at hlen
    rw [hlen, string_length_eq_data]
  have hK1 : 1 ≤ K.length := key_length_pos K hKne
  have hww : ∀ c ∈ w, isWordChar c = true := by
    intro c hc
    have hmem : c.toUpper ∈ K.data := hw ▸ List.mem_map_of_mem _ hc
    exact wordOfUpperLetter c (hKup _ hmem).1 (hKup _ hmem).2
  unfold occursAt matchCond
  have hdropj : (pre ++ w ++ post).drop pre.length = w ++ post := by
    rw [List.append_assoc]
    exact List.drop_left' rfl
  rw [hdropj]
  have h2 : matchesKeyAt (w ++ post) K = true := by
    rw [matchesKeyAt_iff, List.take_left' hwlen, hw]
  have h3 : boundaryAfter (w ++ post) K = true := by
    unfold boundaryAfter
    rw [List.drop_left' hwlen]
    cases hp : post with
    | nil => rfl
    | cons c tl =>
        have hcw : isWordChar c = false := hpost c (by rw [hp]; simp)
        show (!isWordChar c) = true
        rw [hcw]
        rfl
  have h1 : wordBoundary (leftChar none (pre ++ w ++ post) pre.length)
      (w ++ post).head? = true := by
    have hwne : w ≠ [] := by
      intro hnil
      rw [hnil] at hwlen
      simp at hwlen
      omega
    apply wordBoundary_of
    · unfold leftChar
      by_cases hp0 : pre.length = 0
      · rw [if_pos hp0]
        rfl
      · rw [if_neg hp0]
        have hlt : pre.length - 1 < pre.length := by omega
        obtain ⟨c', hc'⟩ := get?_isSome_of_lt hlt
        have hget : (pre ++ w ++ post).get? (pre.length - 1) = some c' := by
          rw [List.append_assoc, List.get?_eq_getElem?, List.getElem?_append_left hlt,
            ← List.get?_eq_getElem?]
          exact hc'
        rw [hget]
        show isWordChar c' = false
        exact hpre c' (List.get?_mem hc')
    · have hw0 : 0 < w.length := by omega
      obtain ⟨c, hc⟩ := get?_isSome_of_lt hw0
      have hhead : (w ++ post).head? = some c := by
        rw [List.head?_append_of_ne_nil w hwne, List.head?_eq_getElem?,
          ← List.get?_eq_getElem?]
        exact hc
      rw [hhead]
      show isWordChar c = true
      exact hww c (List.get?_mem hc)
  rw [h1, h2, h3]
  rfl

/-- In a text made of a (case variant of a) key `K` surrounded by non-word
characters, the only whole-word occurrence of an uppercase-letter key is `K`
itself, right after the prefix. -/
lemma occursAt_sandwich_unique (pre w post : List Char) (K k : String) (j : Nat)
    (hw : w.map Char.toUpper = K.data)
    (hKup : ∀ c ∈ K.data, 'A' ≤ c ∧ c ≤ 'Z') (hKne : K.data ≠ [])
    (hkup : ∀ c ∈ k.data, 'A' ≤ c ∧ c ≤ 'Z') (hkne : k.data ≠ [])
    (hpre : ∀ c ∈ pre, isWordChar c = false)
    (hpost : ∀ c ∈ post, isWordChar c = false)
    (hocc : occursAt none (pre ++ w ++ post) j k = true) :
    j = pre.length ∧ k = K := by
  have hwlen : w.length = K.length := by
    have hlen := congrArg List.length hw
    rw [List.length_map] at hlen
    rw [hlen, string_length_eq_data]
  have hK1 : 1 ≤ K.length := key_length_pos K hKne
  have hk1 : 1 ≤ k.length := key_length_pos k hkne
  have hww : ∀ c ∈ w, isWordChar c = true := by
    intro c hc
    have hmem : c.toUpper ∈ K.data := hw ▸ List.mem_map_of_mem _ hc
    exact wordOfUpperLetter c (hKup _ hmem).1 (hKup _ hmem).2
  unfold occursAt at hocc
  obtain ⟨hb, hm, ha⟩ := matchCond_parts _ _ _ hocc
  have hassoc : pre ++ w ++ post = pre ++ (w ++ post) := List.append_assoc pre w post
  have hle : k.length ≤ (pre ++ w ++ post).length - j := by
    have := matchesKeyAt_le _ _ hm
    rw [List.length_drop] at this
    exact this
  have htlen : (pre ++ w ++ post).length = pre.length + w.length + post.length := by
    rw [List.length_append, List.length_append]
  obtain ⟨c0, hc0head, hc0word⟩ := match_head_word _ k hkup hkne hm
  have hc0 : (pre ++ w ++ post).get? j = some c0 := by
    rw [List.get?_eq_getElem?, ← List.head?_drop]
    exact hc0head
  have hreg : ∀ i, i < k.length → ∀ c,
      (pre ++ w ++ post).get? (j + i) = some c → isWordChar c = true := by
    intro i hi c hc
    apply match_region_word_at ((pre ++ w ++ post).drop j) k hkup hm i hi c
    rw [List.get?_eq_getElem?, List.getElem?_drop, ← List.get?_eq_getElem?]
    exact hc
  have hA : pre.length ≤ j := by
    by_contra hlt
    push_neg at hlt
    have hget : (pre ++ w ++ post).get? j = pre.get? j := by
      rw [hassoc, List.get?_eq_getElem?, List.getElem?_append_left hlt,
        ← List.get?_eq_getElem?]
    rw [hget] at hc0
    have := hpre c0 (List.get?_mem hc0)
    rw [hc0word] at this
    exact Bool.noConfusion this
  have hB : j ≤ pre.length := by
    by_contra hlt
    push_neg at hlt
    have hj1 : j ≠ 0 := by omega
    have hleft : isWordOpt ((pre ++ w ++ post).get? (j - 1)) = false := by
      have := wordBoundary_left_false (leftChar none (pre ++ w ++ post) j)
        ((pre ++ w ++ post).drop j).head? hb (by rw [hc0head]; exact hc0word)
      unfold leftChar at this
      rw [if_neg hj1] at this
      exact this
    by_cases hcase : j - 1 < pre.length + w.length
    · have hge : pre.length ≤ j - 1 := by omega
      have hltw : j - 1 - pre.length < w.length := by omega
      obtain ⟨cw, hcw⟩ := get?_isSome_of_lt hltw
      have hget : (pre ++ w ++ post).get? (j - 1) = some cw := by
        rw [hassoc, List.get?_eq_getElem?, List.getElem?_append_right hge,
          List.getElem?_append_left hltw, ← List.get?_eq_getElem?]
        exact hcw
      rw [hget] at hleft
      have := hww cw (List.get?_mem hcw)
      rw [show isWordOpt (some cw) = isWordChar cw from rfl, this] at hleft
      exact Bool.noConfusion hleft
    · have hge : pre.length + w.length ≤ j := by omega
      have hget : (pre ++ w ++ post).get? j =
          post.get? (j - pre.length - w.length) := by
        rw [hassoc, List.get?_eq_getElem?,
          List.getElem?_append_right (by omega : pre.length ≤ j),
          List.getElem?_append_right (by omega : w.length ≤ j - pre.length),
          ← List.get?_eq_getElem?]
      rw [hget] at hc0
      have := hpost c0 (List.get?_mem hc0)
      rw [hc0word] at this
      exact Bool.noConfusion this
  have hj : j = pre.length := by omega
  subst hj
  refine ⟨rfl, ?_⟩
  have hdropj : (pre ++ w ++ post).drop pre.length = w ++ post := by
    rw [List.append_assoc]
    exact List.drop_left' rfl
  rw [hdropj] at hm ha
  rcases Nat.lt_trichotomy k.length w.length with hlt | heq | hgt
  · exfalso
    obtain ⟨cw, hcw⟩ := get?_isSome_of_lt hlt
    have hget : (w ++ post).get? k.length = some cw := by
      rw [List.get?_eq_getElem?, List.getElem?_append_left hlt,
        ← List.get?_eq_getElem?]
      exact hcw
    have hnw := boundaryAfter_head (w ++ post) k cw ha hget
    have := hww cw (List.get?_mem hcw)
    rw [this] at hnw
    exact Bool.noConfusion hnw
  · rw [matchesKeyAt_iff, List.take_left' heq.symm, hw] at hm
    apply String.ext
    rw [← hm]
  · exfalso
    have hle2 := matchesKeyAt_le _ _ hm
    rw [List.length_append] at hle2
    have hplen : 0 < post.length := by omega
    obtain ⟨cp, hcp⟩ := get?_isSome_of_lt hplen
    have hget : (w ++ post).get? (w.length + 0) = some cp := by
      rw [List.get?_eq_getElem?, List.getElem?_append_right (by omega),
        ← List.get?_eq_getElem?]
      have : w.length + 0 - w.length = 0 := by omega
      rw [this]
      exact hcp
    have hword := match_region_word_at (w ++ post) k hkup hm (w.length + 0)
      (by omega) cp hget
    have := hpost cp (List.get?_mem hcp)
    rw [hword] at this
    exact Bool.noConfusion this

/-!
## Remaining table-level helpers
-/

lemma tableMapGet_mem (k : String) (info : TableInfo)
    (h : tableMapGet k = some info) : (k, info) ∈ TABLE_MAP := by
  unfold tableMapGet at h
  cases hf : TABLE_MAP.find? (fun p => p.1 == k) with
  | none =>
      rw [hf] at h
      exact Option.noConfusion h
  | some p =>
      rw [hf] at h
      have hp1 : p.1 = k := by
        have := List.find?_some hf
        simpa using this
      have hpm := List.mem_of_find?_eq_some hf
      have hp2 : p.2 = info := by simpa using h
      have hpk : p = (k, info) := by
        cases p
        simp at hp1 hp2
        rw [hp1, hp2]
      rw [← hpk]
      exact hpm

set_option maxRecDepth 4096 in
/-- Every note stored in the table is a nonempty string, so the `if note:`
truthiness filter of `_add_hit` keeps all of them. -/
lemma table_notes_truthy : ∀ p ∈ TABLE_MAP,
    (match p.2.note with
      | some s => if s.isEmpty then none else some s
      | none => none) = p.2.note := by decide

/-!
## The scan with the mapping table as explicit state

`find_mm_im_issues` only reads the table.  To state that scanning mutates no
shared state, the lookup is modelled state-passing-style: it receives the
table and hands it back, and the finding-building loop threads it through
every lookup.
-/

/-- Dict lookup as a state-passing operation: read-only access. -/
def tableMapGetSt (st : List (String × TableInfo)) (name : String) :
    Option TableInfo × List (String × TableInfo) :=
  ((st.find? (fun p => p.1 == name)).map Prod.snd, st)

/-- The finding-building loop of `find_mm_im_issues`, threading the table
through every lookup. -/
def collectHitsSt (st : List (String × TableInfo)) :
    List (Nat × Nat × String) → List Finding × List (String × TableInfo)
  | [] => ([], st)
  | m :: ms =>
      match tableMapGetSt st m.2.2 with
      | (some info, st1) =>
          (add_hit (m.1, m.2.1) m.2.2
              (("Use ") ++ info.new ++ (" instead of ") ++ m.2.2 ++ (".")) info.note
            :: (collectHitsSt st1 ms).1,
           (collectHitsSt st1 ms).2)
      | (none, st1) => collectHitsSt st1 ms

/-- `find_mm_im_issues` with the table as explicit state. -/
def find_mm_im_issues_st (st : List (String × TableInfo)) (txt : String) :
    List Finding × List (String × TableInfo) :=
  if txt.data = [] then ([], st)
  else collectHitsSt st (scanFrom none 0 txt.data)

lemma collectHitsSt_state :
    ∀ (ms : List (Nat × Nat × String)) (st : List (String × TableInfo)),
      (collectHitsSt st ms).2 = st := by
  intro ms
  induction ms with
  | nil => intro st; rfl
  | cons m tl ih =>
      intro st
      unfold collectHitsSt
      have hpair : tableMapGetSt st m.2.2 =
          ((st.find? (fun p => p.1 == m.2.2)).map Prod.snd, st) := rfl
      rw [hpair]
      cases hget : (st.find? (fun p => p.1 == m.2.2)).map Prod.snd with
      | none => exact ih st
      | some info => exact ih st

lemma collectHitsSt_table :
    ∀ (ms : List (Nat × Nat × String)),
      (collectHitsSt TABLE_MAP ms).1 = ms.filterMap (fun m =>
        match tableMapGet m.2.2 with
        | some info =>
            some (add_hit (m.1, m.2.1) m.2.2
              (("Use ") ++ info.new ++ (" instead of ") ++ m.2.2 ++ (".")) info.note)
        | none => none) := by
  intro ms
  induction ms with
  | nil => rfl
  | cons m tl ih =>
      unfold collectHitsSt
      rw [List.filterMap_cons]
      have hst : tableMapGetSt TABLE_MAP m.2.2 = (tableMapGet m.2.2, TABLE_MAP) := rfl
      rw [hst]
      cases hget : tableMapGet m.2.2 with
      | none => exact ih
      | some info =>
          show _ :: (collectHitsSt TABLE_MAP tl).1 = _
          rw [ih]

lemma find_st_state (st : List (String × TableInfo)) (txt : String) :
    (find_mm_im_issues_st st txt).2 = st := by
  unfold find_mm_im_issues_st
  by_cases hnil : txt.data = []
  · rw [if_pos hnil]
  · rw [if_neg hnil]
    exact collectHitsSt_state _ st

lemma find_st_spec (txt : String) :
    (find_mm_im_issues_st TABLE_MAP txt).1 = find_mm_im_issues txt := by
  unfold find_mm_im_issues_st find_mm_im_issues
  by_cases hnil : txt.data = []
  · rw [if_pos hnil, if_pos hnil]
  · rw [if_neg hnil, if_neg hnil]
    exact collectHitsSt_table _

/-!
## The claims
-/

/-- C2: for every text with zero whole-word, case-insensitive occurrences of
any mapping-table key (the empty string being the trivial instance, and an
absent text being routed through the same `if not txt` guard), `scan` returns
the empty sequence; being a total function, it raises no error. -/
theorem C2_no_occurrence_empty (txt : String)
    (h : ∀ j, j < txt.data.length → occursAnyAt txt.data j = false) :
    find_mm_im_issues txt = [] := by
  rw [List.eq_nil_iff_forall_not_mem]
  intro f hf
  obtain ⟨j, k, info, hk, hocc, -, -⟩ := (mem_find_iff txt f).mp hf
  have hlt : j < txt.data.length :=
    occursAt_lt_length none txt.data j k (table_names_upper k hk).1 hocc
  have hany : occursAnyAt txt.data j = true := by
    unfold occursAnyAt
    rw [List.any_eq_true]
    exact ⟨k, hk, hocc⟩
  rw [h j hlt] at hany
  exact Bool.noConfusion hany

theorem C2_witness :
    (∀ j, j < ("DATA: lv_foo TYPE string.").data.length →
      occursAnyAt ("DATA: lv_foo TYPE string.").data j = false) ∧
    find_mm_im_issues ("DATA: lv_foo TYPE string.") = [] :=
  ⟨by decide, C2_no_occurrence_empty ("DATA: lv_foo TYPE string.") (by decide)⟩

/-- C3: matching is case-insensitive and the reported `matched_name` is
always a canonical (uppercase) table key, never the literal casing of the
text: the three casings of MSEG each yield exactly one finding named
`"MSEG"`, and in general every finding's name is a key of the table. -/
theorem C3_case_insensitive :
    ((find_mm_im_issues ("mseg")).map (fun f => f.table) = [("MSEG")] ∧
     (find_mm_im_issues ("MSEG")).map (fun f => f.table) = [("MSEG")] ∧
     (find_mm_im_issues ("MsEg")).map (fun f => f.table) = [("MSEG")]) ∧
    ∀ txt f, f ∈ find_mm_im_issues txt → f.table ∈ TABLE_MAP.map Prod.fst := by
  refine ⟨⟨by decide, by decide, by decide⟩, ?_⟩
  intro txt f hf
  obtain ⟨j, k, info, hk, -, -, rfl⟩ := (mem_find_iff txt f).mp hf
  exact (mem_table_names k).mp hk

theorem C3_witness :
    ({ table := "MSEG", target_type := "Table", target_name := "MSEG",
       start_char_in_unit := 0, end_char_in_unit := 4, used_fields := [],
       ambiguous := false, suggested_statement := "Use MATDOC instead of MSEG.",
       suggested_fields := none,
       note := some ("Item + header + attributes merged. Proxy CDS: NSDM_DDL_MSEG.") }
        : Finding) ∈ find_mm_im_issues ("MsEg") ∧
    ({ table := "MSEG", target_type := "Table", target_name := "MSEG",
       start_char_in_unit := 0, end_char_in_unit := 4, used_fields := [],
       ambiguous := false, suggested_statement := "Use MATDOC instead of MSEG.",
       suggested_fields := none,
       note := some ("Item + header + attributes merged. Proxy CDS: NSDM_DDL_MSEG.") }
        : Finding).table ∈ TABLE_MAP.map Prod.fst :=
  ⟨by decide, C3_case_insensitive.2 ("MsEg") _ (by decide)⟩

/-- C4: whole-word guard: a key occurrence immediately preceded or followed
by an alphanumeric-or-underscore character is never reported — concretely,
`scan("MSEGX")` and `scan("XMSEG")` are empty, and in general every reported
finding has a non-word (or absent) character on both sides of its span. -/
theorem C4_whole_word_guard :
    (find_mm_im_issues ("MSEGX") = [] ∧ find_mm_im_issues ("XMSEG") = []) ∧
    ∀ txt f, f ∈ find_mm_im_issues txt →
      (f.start_char_in_unit = 0 ∨
        ∃ c, txt.data.get? (f.start_char_in_unit - 1) = some c ∧ isWordChar c = false) ∧
      (txt.data.get? f.end_char_in_unit = none ∨
        ∃ c, txt.data.get? f.end_char_in_unit = some c ∧ isWordChar c = false) := by
  refine ⟨⟨by decide, by decide⟩, ?_⟩
  intro txt f hf
  obtain ⟨j, k, info, hk, hocc, -, rfl⟩ := (mem_find_iff txt f).mp hf
  have hup := table_names_upper k hk
  unfold occursAt at hocc
  obtain ⟨hb, hm, ha⟩ := matchCond_parts _ _ _ hocc
  constructor
  · show j = 0 ∨ ∃ c, txt.data.get? (j - 1) = some c ∧ isWordChar c = false
    obtain ⟨c0, hc0head, hc0word⟩ := match_head_word _ k hup.2 hup.1 hm
    have hleft : isWordOpt (leftChar none txt.data j) = false :=
      wordBoundary_left_false _ _ hb (by rw [hc0head]; exact hc0word)
    by_cases hj0 : j = 0
    · exact Or.inl hj0
    · right
      unfold leftChar at hleft
      rw [if_neg hj0] at hleft
      cases hgl : txt.data.get? (j - 1) with
      | none =>
          have hjlt : j < txt.data.length :=
            occursAt_lt_length none txt.data j k hup.1 hocc
          rw [List.get?_eq_getElem?, List.getElem?_eq_none_iff] at hgl
          omega
      | some c =>
          rw [hgl] at hleft
          exact ⟨c, rfl, hleft⟩
  · show txt.data.get? (j + k.length) = none ∨
      ∃ c, txt.data.get? (j + k.length) = some c ∧ isWordChar c = false
    cases hgr : txt.data.get? (j + k.length) with
    | none => exact Or.inl rfl
    | some c =>
        right
        refine ⟨c, rfl, ?_⟩
        apply boundaryAfter_head (txt.data.drop j) k c ha
        rw [List.get?_eq_getElem?, List.getElem?_drop, ← List.get?_eq_getElem?]
        exact hgr

theorem C4_witness :
    ({ table := "MSEG", target_type := "Table", target_name := "MSEG",
       start_char_in_unit := 0, end_char_in_unit := 4, used_fields := [],
       ambiguous := false, suggested_statement := "Use MATDOC instead of MSEG.",
       suggested_fields := none,
       note := some ("Item + header + attributes merged. Proxy CDS: NSDM_DDL_MSEG.") }
        : Finding) ∈ find_mm_im_issues ("MSEG") ∧
    ((0 : Nat) = 0 ∨ ∃ c, ("MSEG").data.get? (0 - 1) = some c ∧ isWordChar c = false) ∧
    (("MSEG").data.get? 4 = none ∨
      ∃ c, ("MSEG").data.get? 4 = some c ∧ isWordChar c = false) :=
  ⟨by decide, C4_whole_word_guard.2 ("MSEG")
    { table := "MSEG", target_type := "Table", target_name := "MSEG",
      start_char_in_unit := 0, end_char_in_unit := 4, used_fields := [],
      ambiguous := false, suggested_statement := "Use MATDOC instead of MSEG.",
      suggested_fields := none,
      note := some ("Item + header + attributes merged. Proxy CDS: NSDM_DDL_MSEG.") }
    (by decide)⟩

/-- C5: longest-match precedence: both MARC and MARCH are table keys and
scanning `"MARCH"` yields exactly one finding, for MARCH; in general, any key
of the alternation whose literal matches at a reported finding's start with
its trailing word boundary satisfied is the reported key itself (so no
shorter prefix key can oust a longer one). -/
theorem C5_longest_match :
    ((("MARC") ∈ TABLE_MAP.map Prod.fst ∧ ("MARCH") ∈ TABLE_MAP.map Prod.fst) ∧
      (find_mm_im_issues ("MARCH")).map
          (fun f => (f.table, f.start_char_in_unit, f.end_char_in_unit)) =
        [(("MARCH"), 0, 5)]) ∧
    ∀ txt f q, f ∈ find_mm_im_issues txt → q ∈ TABLE_NAMES →
      matchesKeyAt (txt.data.drop f.start_char_in_unit) q = true →
      boundaryAfter (txt.data.drop f.start_char_in_unit) q = true →
      q = f.table := by
  refine ⟨⟨⟨by decide, by decide⟩, by decide⟩, ?_⟩
  intro txt f q hf hq hmq haq
  obtain ⟨j, k, info, hk, hocc, -, rfl⟩ := (mem_find_iff txt f).mp hf
  unfold occursAt at hocc
  obtain ⟨-, hm, ha⟩ := matchCond_parts _ _ _ hocc
  exact matchKey_unique (txt.data.drop j) q k (table_names_upper q hq).2
    (table_names_upper k hk).2 hmq haq hm ha

theorem C5_witness :
    ({ table := "MARCH", target_type := "Table", target_name := "MARCH",
       start_char_in_unit := 0, end_char_in_unit := 5, used_fields := [],
       ambiguous := false, suggested_statement := "Use NSDM_DDL_MARCH instead of MARCH.",
       suggested_fields := none,
       note := some ("MARC History redirected to CDS.") }
        : Finding) ∈ find_mm_im_issues ("MARCH") ∧
    ("MARCH") ∈ TABLE_NAMES ∧
    matchesKeyAt (("MARCH").data.drop 0) ("MARCH") = true ∧
    boundaryAfter (("MARCH").data.drop 0) ("MARCH") = true ∧
    ("MARCH") = ("MARCH") :=
  ⟨by decide, by decide, by decide, by decide,
    C5_longest_match.2 ("MARCH")
      { table := "MARCH", target_type := "Table", target_name := "MARCH",
        start_char_in_unit := 0, end_char_in_unit := 5, used_fields := [],
        ambiguous := false, suggested_statement := "Use NSDM_DDL_MARCH instead of MARCH.",
        suggested_fields := none,
        note := some ("MARC History redirected to CDS.") }
      ("MARCH") (by decide) (by decide) (by decide) (by decide)⟩

/-- C7: every finding's `suggested_statement` is exactly
`"Use {replacement} instead of {matched_name}."` for its table entry, and
the entry's note is copied into the finding; concretely for
`"SELECT * FROM MSEG WHERE ..."`. -/
theorem C7_suggestion_format :
    (∀ txt f, f ∈ find_mm_im_issues txt →
      ∃ info, tableMapGet f.table = some info ∧
        f.suggested_statement =
          ("Use ") ++ info.new ++ (" instead of ") ++ f.table ++ (".") ∧
        f.note = info.note) ∧
    (find_mm_im_issues ("SELECT * FROM MSEG WHERE ...")).map
        (fun f => (f.table, f.suggested_statement, f.note, f.start_char_in_unit,
          f.end_char_in_unit)) =
      [(("MSEG"), ("Use MATDOC instead of MSEG."),
        some ("Item + header + attributes merged. Proxy CDS: NSDM_DDL_MSEG."), 14, 18)] := by
  refine ⟨?_, by decide⟩
  intro txt f hf
  obtain ⟨j, k, info, hk, hocc, hget, rfl⟩ := (mem_find_iff txt f).mp hf
  refine ⟨info, hget, rfl, ?_⟩
  show (match info.note with
    | some s => if s.isEmpty then none else some s
    | none => none) = info.note
  exact table_notes_truthy (k, info) (tableMapGet_mem k info hget)

theorem C7_witness :
    ({ table := "MSEG", target_type := "Table", target_name := "MSEG",
       start_char_in_unit := 14, end_char_in_unit := 18, used_fields := [],
       ambiguous := false, suggested_statement := "Use MATDOC instead of MSEG.",
       suggested_fields := none,
       note := some ("Item + header + attributes merged. Proxy CDS: NSDM_DDL_MSEG.") }
        : Finding) ∈ find_mm_im_issues ("SELECT * FROM MSEG WHERE ...") ∧
    ∃ info, tableMapGet ("MSEG") = some info ∧
      ("Use MATDOC instead of MSEG.") =
        ("Use ") ++ info.new ++ (" instead of ") ++ ("MSEG") ++ (".") ∧
      some ("Item + header + attributes merged. Proxy CDS: NSDM_DDL_MSEG.") = info.note :=
  ⟨by decide, C7_suggestion_format.1 ("SELECT * FROM MSEG WHERE ...")
    { table := "MSEG", target_type := "Table", target_name := "MSEG",
      start_char_in_unit := 14, end_char_in_unit := 18, used_fields := [],
      ambiguous := false, suggested_statement := "Use MATDOC instead of MSEG.",
      suggested_fields := none,
      note := some ("Item + header + attributes merged. Proxy CDS: NSDM_DDL_MSEG.") }
    (by decide)⟩

/-- C9: reserved-field invariant: every finding has `ambiguous = false`, an
empty `used_fields` list, `suggested_fields` absent, `target_type` the fixed
literal `"Table"`, and `target_name` equal to the table-name field. -/
theorem C9_reserved_fields (txt : String) (f : Finding)
    (hf : f ∈ find_mm_im_issues txt) :
    f.ambiguous = false ∧ f.used_fields = [] ∧ f.suggested_fields = none ∧
    f.target_type = "Table" ∧ f.target_name = f.table := by
  obtain ⟨j, k, info, -, -, -, rfl⟩ := (mem_find_iff txt f).mp hf
  exact ⟨rfl, rfl, rfl, rfl, rfl⟩

theorem C9_witness :
    ({ table := "MSEG", target_type := "Table", target_name := "MSEG",
       start_char_in_unit := 0, end_char_in_unit := 4, used_fields := [],
       ambiguous := false, suggested_statement := "Use MATDOC instead of MSEG.",
       suggested_fields := none,
       note := some ("Item + header + attributes merged. Proxy CDS: NSDM_DDL_MSEG.") }
        : Finding) ∈ find_mm_im_issues ("MSEG") ∧
    (false = false ∧ ([] : List String) = [] ∧ (none : Option (List String)) = none ∧
      ("Table" : String) = "Table" ∧ ("MSEG" : String) = "MSEG") :=
  ⟨by decide, C9_reserved_fields ("MSEG")
    { table := "MSEG", target_type := "Table", target_name := "MSEG",
      start_char_in_unit := 0, end_char_in_unit := 4, used_fields := [],
      ambiguous := false, suggested_statement := "Use MATDOC instead of MSEG.",
      suggested_fields := none,
      note := some ("Item + header + attributes merged. Proxy CDS: NSDM_DDL_MSEG.") }
    (by decide)⟩

/-- C10: the five group maps have pairwise disjoint key sets, the merged
table keeps all 45 entries with no overwriting (its keys are nodup), every
scanner match's name has a table entry, and hence the absent-lookup branch
drops nothing: the findings are in bijection with the matches. -/
theorem C10_disjoint_merge :
    (List.Pairwise List.Disjoint
        [CORE_DOC_MAP.map Prod.fst, HYBRID_MAP.map Prod.fst, AGGR_MAP.map Prod.fst,
          DIMP_MAP.map Prod.fst, HISTORY_MAP.map Prod.fst] ∧
      (TABLE_MAP.map Prod.fst).Nodup ∧ TABLE_MAP.length = 45) ∧
    (∀ (txt : String) (m : Nat × Nat × String),
      m ∈ scanFrom none 0 txt.data → (tableMapGet m.2.2).isSome) ∧
    (∀ (txt : String),
      (find_mm_im_issues txt).length = (scanFrom none 0 txt.data).length) := by
  have hsome : ∀ (txt : String) (m : Nat × Nat × String),
      m ∈ scanFrom none 0 txt.data → (tableMapGet m.2.2).isSome := by
    intro txt m hm
    obtain ⟨j, k, rfl, hk, -⟩ := (mem_scanFrom_iff none 0 txt.data m).mp hm
    exact table_names_found k hk
  refine ⟨⟨?_, table_keys_nodup, by decide⟩, hsome, ?_⟩
  · have hflat : ([CORE_DOC_MAP.map Prod.fst, HYBRID_MAP.map Prod.fst,
        AGGR_MAP.map Prod.fst, DIMP_MAP.map Prod.fst,
        HISTORY_MAP.map Prod.fst] : List (List String)).flatten =
        TABLE_MAP.map Prod.fst := by
      show CORE_DOC_MAP.map Prod.fst ++ (HYBRID_MAP.map Prod.fst ++
        (AGGR_MAP.map Prod.fst ++ (DIMP_MAP.map Prod.fst ++
          (HISTORY_MAP.map Prod.fst ++ [])))) = TABLE_MAP.map Prod.fst
      unfold TABLE_MAP
      simp [List.map_append]
    have hnd : ([CORE_DOC_MAP.map Prod.fst, HYBRID_MAP.map Prod.fst,
        AGGR_MAP.map Prod.fst, DIMP_MAP.map Prod.fst,
        HISTORY_MAP.map Prod.fst] : List (List String)).flatten.Nodup := by
      rw [hflat]
      exact table_keys_nodup
    exact (List.nodup_flatten.mp hnd).2
  · intro txt
    unfold find_mm_im_issues
    by_cases hnil : txt.data = []
    · rw [if_pos hnil]
      unfold scanFrom
      rw [hnil]
      rfl
    · rw [if_neg hnil]
      apply filterMap_length_all_some
      intro m hm
      cases hget : tableMapGet m.2.2 with
      | none =>
          have := hsome txt m hm
          rw [hget] at this
          exact absurd this (by simp)
      | some info => rfl

theorem C10_witness :
    ((0, 4, ("MSEG")) ∈ scanFrom none 0 ("MSEG").data) ∧
    (tableMapGet ("MSEG")).isSome :=
  ⟨by decide, C10_disjoint_merge.2.1 ("MSEG") (0, 4, ("MSEG")) (by decide)⟩

/-- C8: determinism and purity: with the mapping table threaded as explicit
state, a scan hands the table back unchanged (no mutation of shared state);
a second scan run on the state left by the first returns the identical
findings; and the stateful scan agrees with the pure `find_mm_im_issues`,
a function of the text and the static table alone. -/
theorem C8_deterministic (txt : String) :
    (∀ st, (find_mm_im_issues_st st txt).2 = st) ∧
    (find_mm_im_issues_st (find_mm_im_issues_st TABLE_MAP txt).2 txt).1 =
      (find_mm_im_issues_st TABLE_MAP txt).1 ∧
    (find_mm_im_issues_st TABLE_MAP txt).1 = find_mm_im_issues txt := by
  refine ⟨fun st => find_st_state st txt, ?_, find_st_spec txt⟩
  rw [find_st_state TABLE_MAP txt]

/-- C6: findings are returned in strictly ascending start order with
non-overlapping spans; the list of start offsets is exactly the list of
positions at which some key occurs as a whole word (so N whole-word
occurrences yield exactly N findings); concretely for
`"MKPF and MSEG and MKPF"`. -/
theorem C6_ordering (txt : String) :
    (find_mm_im_issues txt).Pairwise
      (fun a b => a.end_char_in_unit ≤ b.start_char_in_unit ∧
        a.start_char_in_unit < b.start_char_in_unit) ∧
    (find_mm_im_issues txt).map (fun f => f.start_char_in_unit) =
      (List.range txt.data.length).filter (fun j => occursAnyAt txt.data j) ∧
    (find_mm_im_issues ("MKPF and MSEG and MKPF")).map
        (fun f => (f.table, f.start_char_in_unit, f.end_char_in_unit)) =
      [(("MKPF"), 0, 4), (("MSEG"), 9, 13), (("MKPF"), 18, 22)] := by
  refine ⟨find_pairwise txt, ?_, by decide⟩
  have hpw : ((find_mm_im_issues txt).map
      (fun f => f.start_char_in_unit)).Pairwise (· < ·) := by
    rw [List.pairwise_map]
    exact (find_pairwise txt).imp (fun h => h.2)
  have hpw2 : ((List.range txt.data.length).filter
      (fun j => occursAnyAt txt.data j)).Pairwise (· < ·) :=
    (List.pairwise_lt_range _).filter _
  have hmem : ∀ j, j ∈ (find_mm_im_issues txt).map (fun f => f.start_char_in_unit) ↔
      j ∈ (List.range txt.data.length).filter (fun j => occursAnyAt txt.data j) := by
    intro j
    rw [List.mem_map, List.mem_filter, List.mem_range]
    constructor
    · rintro ⟨f, hf, hstart⟩
      obtain ⟨j', k, info, hk, hocc, hget, rfl⟩ := (mem_find_iff txt f).mp hf
      have hj' : j' = j := hstart
      subst hj'
      refine ⟨occursAt_lt_length none txt.data j' k (table_names_upper k hk).1 hocc, ?_⟩
      unfold occursAnyAt
      rw [List.any_eq_true]
      exact ⟨k, hk, hocc⟩
    · rintro ⟨hlt, hany⟩
      unfold occursAnyAt at hany
      rw [List.any_eq_true] at hany
      obtain ⟨k, hk, hocc⟩ := hany
      obtain ⟨info, hget⟩ := Option.isSome_iff_exists.mp (table_names_found k hk)
      refine ⟨add_hit (j, j + k.length) k (suggestionFor k info) info.note, ?_, rfl⟩
      exact (mem_find_iff txt _).mpr ⟨j, k, info, hk, hocc, hget, rfl⟩
  have hnd1 : ((find_mm_im_issues txt).map (fun f => f.start_char_in_unit)).Nodup :=
    hpw.imp (fun h => Nat.ne_of_lt h)
  have hnd2 : ((List.range txt.data.length).filter
      (fun j => occursAnyAt txt.data j)).Nodup :=
    hpw2.imp (fun h => Nat.ne_of_lt h)
  have hperm := (List.perm_ext_iff_of_nodup hnd1 hnd2).mpr hmem
  exact List.eq_of_perm_of_sorted hperm
    (hpw.imp (fun h => Nat.le_of_lt h)) (hpw2.imp (fun h => Nat.le_of_lt h))

/-- C1: for every table key `K` and every text that is exactly a casing
variant of `K` surrounded on both sides by non-word characters (or by the
text's start/end), `scan` returns exactly one finding, named by the
canonical key `K`, whose offsets bracket the occurrence (end exclusive). -/
theorem C1_exact_key_scan (K : String) (info : TableInfo) (w pre post : List Char)
    (hK : (K, info) ∈ TABLE_MAP)
    (hw : w.map Char.toUpper = K.data)
    (hpre : ∀ c ∈ pre, isWordChar c = false)
    (hpost : ∀ c ∈ post, isWordChar c = false) :
    (find_mm_im_issues ⟨pre ++ w ++ post⟩).map
        (fun f => (f.table, f.start_char_in_unit, f.end_char_in_unit)) =
      [(K, pre.length, pre.length + K.length)] := by
  have hKn : K ∈ TABLE_NAMES := (mem_table_names K).mpr (List.mem_map_of_mem Prod.fst hK)
  have hKup := table_names_upper K hKn
  have hget : tableMapGet K = some info := tableMapGet_of_mem K info hK
  have hdata : (⟨pre ++ w ++ post⟩ : String).data = pre ++ w ++ post := rfl
  have hocc : occursAt none (pre ++ w ++ post) pre.length K = true :=
    occursAt_sandwich pre w post K hw hKup.2 hKup.1 hpre hpost
  have hmem : add_hit (pre.length, pre.length + K.length) K
      (suggestionFor K info) info.note ∈ find_mm_im_issues ⟨pre ++ w ++ post⟩ := by
    apply (mem_find_iff _ _).mpr
    refine ⟨pre.length, K, info, hKn, ?_, hget, rfl⟩
    rw [hdata]
    exact hocc
  have hall : ∀ f ∈ find_mm_im_issues ⟨pre ++ w ++ post⟩,
      f = add_hit (pre.length, pre.length + K.length) K
        (suggestionFor K info) info.note := by
    intro f hf
    obtain ⟨j, k, info', hk, hocc', hget', rfl⟩ := (mem_find_iff _ f).mp hf
    rw [hdata] at hocc'
    have hkup := table_names_upper k hk
    obtain ⟨hj, hkK⟩ := occursAt_sandwich_unique pre w post K k j hw hKup.2 hKup.1
      hkup.2 hkup.1 hpre hpost hocc'
    subst hj
    subst hkK
    rw [hget] at hget'
    have hinfo : info' = info := (Option.some.inj hget').symm
    rw [hinfo]
  have hirr : ¬((add_hit (pre.length, pre.length + K.length) K
        (suggestionFor K info) info.note).end_char_in_unit ≤
      (add_hit (pre.length, pre.length + K.length) K
        (suggestionFor K info) info.note).start_char_in_unit ∧
      (add_hit (pre.length, pre.length + K.length) K
        (suggestionFor K info) info.note).start_char_in_unit <
      (add_hit (pre.length, pre.length + K.length) K
        (suggestionFor K info) info.note).start_char_in_unit) :=
    fun h => lt_irrefl _ h.2
  have hsing := eq_singleton_of_all_eq _ (find_mm_im_issues ⟨pre ++ w ++ post⟩) _
    hmem hall (find_pairwise _) hirr
  rw [hsing]
  rfl

theorem C1_witness :
    ((("MSEG"),
        (⟨"MATDOC",
          some ("Item + header + attributes merged. Proxy CDS: NSDM_DDL_MSEG.")⟩
          : TableInfo)) ∈ TABLE_MAP ∧
      (("msEg").data).map Char.toUpper = ("MSEG").data ∧
      (∀ c ∈ ([' '] : List Char), isWordChar c = false) ∧
      (∀ c ∈ (['.'] : List Char), isWordChar c = false)) ∧
    (find_mm_im_issues ⟨[' '] ++ ("msEg").data ++ ['.']⟩).map
        (fun f => (f.table, f.start_char_in_unit, f.end_char_in_unit)) =
      [(("MSEG"), 1, 5)] :=
  ⟨⟨by decide, by decide, by decide, by decide⟩,
    C1_exact_key_scan ("MSEG")
      (⟨"MATDOC",
        some ("Item + header + attributes merged. Proxy CDS: NSDM_DDL_MSEG.")⟩
        : TableInfo)
      (("msEg").data) ([' ']) (['.'])
      (by decide) (by decide) (by decide) (by decide)⟩
